import Mathlib

/-!
Verification of the entry-removal engine of `entry_remove.py`.

The script removes requested entries (and any linked child entries) from a
multi-sheet tabular manifest.  The embedding below mirrors the source:

* a cell is `Option String` (`none` is pandas NaN);
* `loadNode` models the per-sheet load (`pd.read_excel` with `dtype=str`,
  `na_values=NA_bank`, `keep_default_na=False`) followed by the usability
  check on a blank-dropped copy;
* `buildWorkingSet` models the loop that fills `workbook_list`;
* `run`/`processEntry`/`processTables` model the worklist loop (step 4 of
  `main`), with `Except` capturing the uncaught `KeyError` raised by
  `row[f"{node}_id"]` when a table lacks its own identifier column;
* `persist` models the openpyxl write-back (step 5);
* `mainRun` models the artifact-producing pipeline of `main` with the log
  file opened just before the loop and the workbook saved at the end.
-/

namespace EntryRemove

/-- A cell value: `some s` is a textual cell, `none` is a missing value (NaN). -/
abbrev Cell := Option String

/-- A loaded table: ordered column names and rows of cells aligned with the columns. -/
structure Table where
  cols : List String
  rows : List (List Cell)
deriving DecidableEq, Repr

/-- Identifier column name of a node-kind: `f"{node}_id"`. -/
def idCol (node : String) : String := node ++ "_id"

/-- Whether a column name contains a dot (Python `"." in c`). -/
def hasDot (s : String) : Bool := s.data.any (fun ch => ch == '.')

/-- Whether a column name ends with `_id` (Python `c.endswith("_id")`). -/
def endsWithId (s : String) : Bool :=
  s.data.drop (s.data.length - 3) == ['_', 'i', 'd']

/-- Link-column test of the source: contains a dot and ends with `_id`. -/
def isLinkCol (c : String) : Bool := hasDot c && endsWithId c

/-- The link columns of a column list, in column order. -/
def linkCols (cols : List String) : List String := cols.filter isLinkCol

/-- Missing-value tokens passed to the reader as `na_values`. -/
def NA_bank : List String := ["NA", "na", "N/A", "n/a"]

/-- A raw sheet of the dataset: header and textual body cells (`""` is a blank cell). -/
structure Sheet where
  header : List String
  body : List (List String)
deriving DecidableEq, Repr

/-- Reading one raw cell: blank cells and the `NA_bank` tokens become missing. -/
def readCell (s : String) : Cell := if s = "" ∨ s ∈ NA_bank then none else some s

/-- Reading a sheet as `pd.read_excel` does with the configured `na_values`. -/
def readSheet (s : Sheet) : Table := ⟨s.header, s.body.map (fun r => r.map readCell)⟩

/-- Drop rows that are entirely missing (`drop_empty(df, axis=0)`). -/
def dropEmptyRows (t : Table) : Table :=
  ⟨t.cols, t.rows.filter (fun r => !(r.all (fun c => c == none)))⟩

/-- Indices of columns holding at least one present value. -/
def keepColIdxs (t : Table) : List Nat :=
  (List.range t.cols.length).filter
    (fun i => t.rows.any (fun r => !((r.get? i).getD none == none)))

/-- Drop columns that are entirely missing (`drop_empty(df, axis=1)`). -/
def dropEmptyCols (t : Table) : Table :=
  let keep := keepColIdxs t
  ⟨keep.filterMap (fun i => t.cols.get? i),
   t.rows.map (fun r => keep.filterMap (fun i => r.get? i))⟩

/-- Structural usability: after dropping blank columns then blank rows, the copy has
at least one row and at least one real (dot-free) column. -/
def usable (t : Table) : Bool :=
  let df2 := dropEmptyRows (dropEmptyCols t)
  !df2.rows.isEmpty && !(df2.cols.filter (fun c => !(hasDot c))).isEmpty

/-- Loading one node sheet: read with NA normalization; the usability check runs on the
blank-dropped copy, while the stored table is the read (undropped) frame `df`. -/
def loadNode (s : Sheet) : Option Table :=
  let df := readSheet s
  if usable df then some df else none

/-- Association-list lookup by key (first match, as a Python dict keyed by name). -/
def alistLookup {α : Type} : List (String × α) → String → Option α
  | [], _ => none
  | p :: l, k => if p.1 = k then some p.2 else alistLookup l k

/-- Dictionary-style insert into an association list (update in place or append). -/
def dictInsert {α : Type} (l : List (String × α)) (k : String) (v : α) :
    List (String × α) :=
  if l.any (fun p => p.1 == k) then
    l.map (fun p => if p.1 == k then (p.1, v) else p)
  else l ++ [(k, v)]

/-- One step of the loading loop over the declared node-kinds: a node-kind with no
sheet of that name (`except ValueError: continue`) is skipped, as is an unusable one. -/
def loadStep (d : List (String × Sheet)) (acc : List (String × Table)) (node : String) :
    List (String × Table) :=
  match alistLookup d node with
  | none => acc
  | some s =>
    match loadNode s with
    | none => acc
    | some t => dictInsert acc node t

/-- The working set `workbook_list` of usable node-kind tables, in load order. -/
def buildWorkingSet (d : List (String × Sheet)) (nodes : List String) :
    List (String × Table) :=
  nodes.foldl (loadStep d) []

/-- First-appearance deduplication, as `Series.unique` applied to the Node column. -/
def dedupFirst (l : List String) : List String :=
  l.foldl (fun acc n => if n ∈ acc then acc else acc ++ [n]) []

/-- The initial worklist: the parsed entry cells with missing values dropped
(`entries_df['X1'].dropna().tolist()`). -/
def initWorklist (raw : List Cell) : List Cell := raw.filter (fun c => c.isSome)

/-- Engine state: working-set tables, per-node deletion records, the worklist,
and the (ghost) trace of entries popped so far. -/
structure EngState where
  tables : List (String × Table)
  deleted : List (String × List Cell)
  pending : List Cell
  processed : List Cell
deriving DecidableEq, Repr

/-- Engine state at the top of the while loop: fresh empty deletion records per
working-set node-kind, worklist as given. -/
def initState (ws : List (String × Table)) (request : List Cell) : EngState :=
  ⟨ws, ws.map (fun p => (p.1, [])), request, []⟩

/-- Column index lookup (first occurrence). -/
def colIdx : List String → String → Option Nat
  | [], _ => none
  | c0 :: cs, c => if c0 = c then some 0 else (colIdx cs c).map (fun i => i + 1)

/-- The cell of a row at a named column, when the column exists. -/
def cellAt (cols : List String) (r : List Cell) (c : String) : Option Cell :=
  match colIdx cols c with
  | none => none
  | some i => r.get? i

/-- Elementwise equality of a cell against the current entry, as pandas `==` does
(a missing entry matches nothing, a missing cell matches nothing). -/
def matchesVal (cell : Cell) (curr : Cell) : Bool :=
  match curr with
  | none => false
  | some s => cell == some s

/-- Whether the row's value at the named column equals the current entry. -/
def matchCell (cols : List String) (r : List Cell) (c : String) (curr : Cell) : Bool :=
  match cellAt cols r c with
  | none => false
  | some cell => matchesVal cell curr

/-- Direct-hit phase on one table: if the table has its identifier column, drop every
row whose identifier equals the entry and report whether any row was hit. -/
def directDrop (node : String) (t : Table) (curr : Cell) : Table × Bool :=
  if idCol node ∈ t.cols then
    (⟨t.cols, t.rows.filter (fun r => !(matchCell t.cols r (idCol node) curr))⟩,
     t.rows.any (fun r => matchCell t.cols r (idCol node) curr))
  else (t, false)

/-- Append the entry to one node-kind's deletion record (`deleted[node].append(curr)`). -/
def recordDeleted (d : List (String × List Cell)) (node : String) (curr : Cell) :
    List (String × List Cell) :=
  d.map (fun p => if p.1 == node then (p.1, p.2 ++ [curr]) else p)

/-- A node-kind's current deletion record. -/
def deletedOf (d : List (String × List Cell)) (n : String) : List Cell :=
  (alistLookup d n).getD []

/-- Child discovery over the rows matching one link column: each matching row's own
identifier is queued unless already recorded or already pending; a missing identifier
column is the uncaught `KeyError`. -/
def discoverRows (cols : List String) (idc : String) (deletedNode : List Cell) :
    List (List Cell) → List Cell → Except String (List Cell)
  | [], pending => Except.ok pending
  | r :: rs, pending =>
    match cellAt cols r idc with
    | none => Except.error "KeyError"
    | some child =>
      if child ∈ deletedNode ∨ child ∈ pending then
        discoverRows cols idc deletedNode rs pending
      else
        discoverRows cols idc deletedNode rs (pending ++ [child])

/-- Child discovery over every link column of a table, in column order. -/
def discoverLinks (curr : Cell) (cols : List String) (idc : String)
    (deletedNode : List Cell) (rows : List (List Cell)) :
    List String → List Cell → Except String (List Cell)
  | [], pending => Except.ok pending
  | lc :: lcs, pending =>
    match discoverRows cols idc deletedNode
        (rows.filter (fun r => matchCell cols r lc curr)) pending with
    | Except.error e => Except.error e
    | Except.ok p => discoverLinks curr cols idc deletedNode rows lcs p

/-- The deletion records after the direct-hit phase on one table: the entry is
appended to the node's record exactly when some row was hit. -/
def dAfterHit (curr : Cell) (node : String) (t : Table)
    (d : List (String × List Cell)) : List (String × List Cell) :=
  if (directDrop node t curr).2 then recordDeleted d node curr else d

/-- One loop-body iteration on a single table: direct-hit drop, deletion-record
update when rows were hit, then child discovery over the dropped table. -/
def tableStep (curr : Cell) (node : String) (t : Table) (pending : List Cell)
    (d : List (String × List Cell)) :
    Except String (Table × List Cell × List (String × List Cell)) :=
  match discoverLinks curr (directDrop node t curr).1.cols (idCol node)
      (deletedOf (dAfterHit curr node t d) node) (directDrop node t curr).1.rows
      (linkCols (directDrop node t curr).1.cols) pending with
  | Except.error e => Except.error e
  | Except.ok p1 => Except.ok ((directDrop node t curr).1, p1, dAfterHit curr node t d)

/-- Process one entry across the working-set tables in order, threading the worklist
and the deletion records exactly as the body of the while loop does. -/
def processTables (curr : Cell) :
    List (String × Table) → List Cell → List (String × List Cell) →
    Except String (List (String × Table) × List Cell × List (String × List Cell))
  | [], pending, d => Except.ok ([], pending, d)
  | (node, t) :: rest, pending, d =>
    match tableStep curr node t pending d with
    | Except.error e => Except.error e
    | Except.ok (t', p1, d1) =>
      match processTables curr rest p1 d1 with
      | Except.error e => Except.error e
      | Except.ok (ts, p2, d2) => Except.ok ((node, t') :: ts, p2, d2)

/-- Process one popped entry and record it in the processed trace. -/
def processEntry (curr : Cell) (st : EngState) : Except String EngState :=
  match processTables curr st.tables st.pending st.deleted with
  | Except.error e => Except.error e
  | Except.ok (ts, p, d) => Except.ok ⟨ts, d, p, st.processed ++ [curr]⟩

/-- Run the worklist loop for at most `fuel` pops (`while pending:`). -/
def run : Nat → EngState → Except String EngState
  | 0, st => Except.ok st
  | fuel + 1, st =>
    match st.pending with
    | [] => Except.ok st
    | curr :: rest =>
      match processEntry curr { st with pending := rest } with
      | Except.error e => Except.error e
      | Except.ok st' => run fuel st'

/-- Sheet contents as written by the persister: header row then surviving rows
(`dataframe_to_rows(df, index=False, header=True)`). -/
abbrev SheetOut := List (List Cell)

/-- Serialized form of an in-memory table. -/
def render (t : Table) : SheetOut := (t.cols.map (fun c => some c)) :: t.rows

/-- Replace or create each working-set sheet in the output workbook; sheets not in the
working set keep their contents; an all-empty workbook gets a placeholder sheet. -/
def persist (wb : List (String × SheetOut)) (ws : List (String × Table)) :
    List (String × SheetOut) :=
  let out := ws.foldl (fun acc p => dictInsert acc p.1 (render p.2)) wb
  if out.isEmpty then [("Sheet1", [])] else out

/-- Output artifacts of a run. -/
inductive Artifact
  | logFile
  | output
deriving DecidableEq, Repr

/-- The artifact-producing pipeline of `main`: Dictionary read, table loading,
working-set validation, entries read, then the removal loop with the log file held
open, then the workbook save.  `nodeCol` is the Node column of the Dictionary sheet
(`none` models an unreadable template); `entries` is the parsed entries file (`none`
models an unreadable entries file); `saveOk` models whether `wb.save` succeeds.
Returns the artifacts that exist afterwards and whether the run succeeded. -/
def mainRun (nodeCol : Option (List String)) (dataset : List (String × Sheet))
    (entries : Option (List Cell)) (fuel : Nat) (saveOk : Bool) :
    List Artifact × Bool :=
  match nodeCol with
  | none => ([], false)
  | some nodes =>
    let ws := buildWorkingSet dataset (dedupFirst nodes)
    if ws.isEmpty then ([], false)
    else
      match entries with
      | none => ([], false)
      | some raw =>
        match run fuel (initState ws (initWorklist raw)) with
        | Except.error _ => ([Artifact.logFile], false)
        | Except.ok _ =>
          if saveOk then ([Artifact.logFile, Artifact.output], true)
          else ([Artifact.logFile], false)

/-! ### Basic lemmas about column lookup and matching -/

theorem colIdx_eq_none (cols : List String) (c : String) (h : c ∉ cols) :
    colIdx cols c = none := by
  induction cols with
  | nil => rfl
  | cons c0 cs ih =>
    simp only [List.mem_cons, not_or] at h
    have hne : ¬ c0 = c := fun hh => h.1 hh.symm
    simp only [colIdx, if_neg hne, ih h.2, Option.map_none']

theorem mem_of_colIdx (cols : List String) (c : String) (i : Nat)
    (h : colIdx cols c = some i) : c ∈ cols := by
  induction cols generalizing i with
  | nil => simp [colIdx] at h
  | cons c0 cs ih =>
    by_cases hc : c0 = c
    · exact hc ▸ List.mem_cons_self _ _
    · simp only [colIdx, if_neg hc] at h
      cases hidx : colIdx cs c with
      | none => rw [hidx] at h; simp at h
      | some j => exact List.mem_cons_of_mem _ (ih j hidx)

theorem cellAt_eq_none (cols : List String) (r : List Cell) (c : String) (h : c ∉ cols) :
    cellAt cols r c = none := by
  simp [cellAt, colIdx_eq_none cols c h]

theorem mem_of_cellAt (cols : List String) (r : List Cell) (c : String) (x : Cell)
    (h : cellAt cols r c = some x) : c ∈ cols := by
  unfold cellAt at h
  cases hidx : colIdx cols c with
  | none => rw [hidx] at h; simp at h
  | some i => exact mem_of_colIdx cols c i hidx

theorem matchCell_none (cols : List String) (r : List Cell) (c : String) :
    matchCell cols r c none = false := by
  unfold matchCell
  cases cellAt cols r c <;> simp [matchesVal]

theorem matchCell_of_not_mem (cols : List String) (r : List Cell) (c : String) (e : Cell)
    (h : c ∉ cols) : matchCell cols r c e = false := by
  simp [matchCell, cellAt_eq_none cols r c h]

theorem matchCell_of_cellAt (cols : List String) (r : List Cell) (c : String) (s : String)
    (h : cellAt cols r c = some (some s)) : matchCell cols r c (some s) = true := by
  simp [matchCell, h, matchesVal]

/-! ### Evolution predicates: the loop only removes rows and never changes columns -/

/-- One table evolves into another: same columns, rows a subset of the old rows. -/
def tableEvolves (t t' : Table) : Prop :=
  t'.cols = t.cols ∧ ∀ r ∈ t'.rows, r ∈ t.rows

/-- Pointwise evolution of the working set: same node names in the same order. -/
def tablesEvolve (ts ts' : List (String × Table)) : Prop :=
  List.Forall₂ (fun p q => q.1 = p.1 ∧ tableEvolves p.2 q.2) ts ts'

theorem tablesEvolve_mem (ts ts' : List (String × Table)) (h : tablesEvolve ts ts') :
    ∀ q ∈ ts', ∃ p ∈ ts, q.1 = p.1 ∧ tableEvolves p.2 q.2 := by
  induction h with
  | nil => intro q hq; cases hq
  | cons hpq _ ih =>
    intro q hq
    rcases List.mem_cons.mp hq with h1 | h2
    · exact ⟨_, List.mem_cons_self _ _, h1 ▸ hpq⟩
    · obtain ⟨p, hp, hrel⟩ := ih q h2
      exact ⟨p, List.mem_cons_of_mem _ hp, hrel⟩

/-- No retained row of any table matches `e` in its own identifier column. -/
def clearedIn (e : Cell) (ts : List (String × Table)) : Prop :=
  ∀ q ∈ ts, ∀ r ∈ q.2.rows, matchCell q.2.cols r (idCol q.1) e = false

/-- Every retained row whose link value matches `e` has a missing identifier cell. -/
def linkSafe (e : Cell) (ts : List (String × Table)) : Prop :=
  ∀ q ∈ ts, ∀ lc ∈ linkCols q.2.cols, ∀ r ∈ q.2.rows,
    matchCell q.2.cols r lc e = true → cellAt q.2.cols r (idCol q.1) = some none

theorem clearedIn_mono (e : Cell) (ts ts' : List (String × Table))
    (h : tablesEvolve ts ts') (hc : clearedIn e ts) : clearedIn e ts' := by
  intro q hq r hr
  obtain ⟨p, hp, hkey, hcols, hrows⟩ := tablesEvolve_mem ts ts' h q hq
  rw [hkey, hcols]
  exact hc p hp r (hrows r hr)

theorem linkSafe_mono (e : Cell) (ts ts' : List (String × Table))
    (h : tablesEvolve ts ts') (hc : linkSafe e ts) : linkSafe e ts' := by
  intro q hq lc hlc r hr hm
  obtain ⟨p, hp, hkey, hcols, hrows⟩ := tablesEvolve_mem ts ts' h q hq
  rw [hkey, hcols]
  rw [hcols] at hlc hm
  exact hc p hp lc hlc r (hrows r hr) hm

theorem clearedIn_none (ts : List (String × Table)) : clearedIn none ts :=
  fun q _ r _ => matchCell_none q.2.cols r (idCol q.1)

theorem linkSafe_none (ts : List (String × Table)) : linkSafe none ts := by
  intro q _ lc _ r _ hm
  rw [matchCell_none] at hm
  cases hm

/-! ### Direct-hit phase -/

theorem directDrop_cols (node : String) (t : Table) (curr : Cell) :
    (directDrop node t curr).1.cols = t.cols := by
  unfold directDrop; split <;> rfl

theorem directDrop_rows (node : String) (t : Table) (curr : Cell) :
    ∀ r ∈ (directDrop node t curr).1.rows, r ∈ t.rows := by
  intro r hr
  unfold directDrop at hr
  split at hr
  · exact (List.mem_filter.mp hr).1
  · exact hr

theorem directDrop_clear (node : String) (t : Table) (curr : Cell) :
    ∀ r ∈ (directDrop node t curr).1.rows, matchCell t.cols r (idCol node) curr = false := by
  intro r hr
  unfold directDrop at hr
  split at hr
  · have := (List.mem_filter.mp hr).2
    simpa using this
  · next h => exact matchCell_of_not_mem t.cols r (idCol node) curr h

theorem directDrop_flag_false (node : String) (t : Table) (curr : Cell)
    (h : ∀ r ∈ t.rows, matchCell t.cols r (idCol node) curr = false) :
    (directDrop node t curr).2 = false := by
  unfold directDrop
  split
  · exact List.any_eq_false.mpr (by simpa using h)
  · rfl

theorem directDrop_of_not_mem (node : String) (t : Table) (curr : Cell)
    (h : idCol node ∉ t.cols) : directDrop node t curr = (t, false) := by
  unfold directDrop
  exact if_neg h

/-! ### Deletion records -/

theorem alistLookup_recordDeleted (d : List (String × List Cell)) (node : String)
    (curr : Cell) (n : String) :
    alistLookup (recordDeleted d node curr) n =
      (alistLookup d n).map (fun v => if n = node then v ++ [curr] else v) := by
  induction d with
  | nil => rfl
  | cons p d ih =>
    by_cases h2 : p.1 = node
    · by_cases h1 : p.1 = n
      · have hn : n = node := h1 ▸ h2
        simp [recordDeleted, alistLookup, beq_iff_eq, h1, h2, hn]
      · have hn : ¬ node = n := h2 ▸ h1
        simpa [recordDeleted, alistLookup, beq_iff_eq, h1, h2, hn] using ih
    · by_cases h1 : p.1 = n
      · have hn : ¬ n = node := h1 ▸ h2
        simp [recordDeleted, alistLookup, beq_iff_eq, h1, h2, hn]
      · simpa [recordDeleted, alistLookup, beq_iff_eq, h1, h2] using ih

theorem deletedOf_record_mono (d : List (String × List Cell)) (node : String)
    (curr : Cell) (n : String) :
    ∃ l, deletedOf (recordDeleted d node curr) n = deletedOf d n ++ l := by
  unfold deletedOf
  rw [alistLookup_recordDeleted]
  cases alistLookup d n with
  | none => exact ⟨[], rfl⟩
  | some v =>
    by_cases h : n = node
    · exact ⟨[curr], by simp [h]⟩
    · exact ⟨[], by simp [h]⟩

theorem deletedOf_record_new (d : List (String × List Cell)) (node : String)
    (curr : Cell) (n : String) (c : Cell)
    (h : c ∈ deletedOf (recordDeleted d node curr) n) :
    c ∈ deletedOf d n ∨ c = curr := by
  unfold deletedOf at h ⊢
  rw [alistLookup_recordDeleted] at h
  cases hl : alistLookup d n with
  | none => rw [hl] at h; simp at h
  | some v =>
    rw [hl] at h
    by_cases hn : n = node
    · simp only [hn, if_pos rfl, Option.map_some', Option.getD_some, List.mem_append,
        List.mem_singleton] at h
      simpa [hl] using h
    · simp only [if_neg hn, Option.map_some', Option.getD_some] at h
      simp [hl, h]

theorem deletedOf_init (ws : List (String × Table)) (n : String) :
    deletedOf (ws.map (fun p => (p.1, []))) n = [] := by
  induction ws with
  | nil => rfl
  | cons p ws ih =>
    by_cases h : p.1 = n <;> simp_all [deletedOf, alistLookup, h]

/-! ### Child-discovery lemmas -/

theorem discoverRows_mono (cols : List String) (idc : String) (dn : List Cell) :
    ∀ rs p p', discoverRows cols idc dn rs p = Except.ok p' → ∃ l, p' = p ++ l := by
  intro rs
  induction rs with
  | nil =>
    intro p p' h
    simp only [discoverRows] at h
    cases h
    exact ⟨[], by simp⟩
  | cons r rs ih =>
    intro p p' h
    simp only [discoverRows] at h
    cases hc : cellAt cols r idc with
    | none => rw [hc] at h; cases h
    | some child =>
      rw [hc] at h
      simp only at h
      split at h
      · exact ih p p' h
      · obtain ⟨l, hl⟩ := ih (p ++ [child]) p' h
        exact ⟨[child] ++ l, by simp [hl]⟩

theorem discoverRows_cover (cols : List String) (idc : String) (dn : List Cell) :
    ∀ rs p p', discoverRows cols idc dn rs p = Except.ok p' →
      ∀ r ∈ rs, ∃ c, cellAt cols r idc = some c ∧ (c ∈ dn ∨ c ∈ p') := by
  intro rs
  induction rs with
  | nil => intro p p' _ r hr; cases hr
  | cons r0 rs ih =>
    intro p p' h r hr
    simp only [discoverRows] at h
    cases hc : cellAt cols r0 idc with
    | none => rw [hc] at h; cases h
    | some child =>
      rw [hc] at h
      simp only at h
      rcases List.mem_cons.mp hr with hhead | htail
      · subst hhead
        refine ⟨child, hc, ?_⟩
        split at h
        · next hguard =>
          rcases hguard with hdn | hp
          · exact Or.inl hdn
          · obtain ⟨l, hl⟩ := discoverRows_mono cols idc dn rs p p' h
            exact Or.inr (hl ▸ List.mem_append_left l hp)
        · obtain ⟨l, hl⟩ := discoverRows_mono cols idc dn rs (p ++ [child]) p' h
          refine Or.inr (hl ▸ List.mem_append_left l ?_)
          simp
      · split at h
        · exact ih p p' h r htail
        · exact ih (p ++ [child]) p' h r htail

theorem discoverRows_new (cols : List String) (idc : String) (dn : List Cell) :
    ∀ rs p p', discoverRows cols idc dn rs p = Except.ok p' →
      ∀ e ∈ p', e ∈ p ∨ ∃ r ∈ rs, cellAt cols r idc = some e := by
  intro rs
  induction rs with
  | nil =>
    intro p p' h e he
    simp only [discoverRows] at h
    cases h
    exact Or.inl he
  | cons r0 rs ih =>
    intro p p' h e he
    simp only [discoverRows] at h
    cases hc : cellAt cols r0 idc with
    | none => rw [hc] at h; cases h
    | some child =>
      rw [hc] at h
      simp only at h
      split at h
      · rcases ih p p' h e he with h1 | ⟨r, hr, hcr⟩
        · exact Or.inl h1
        · exact Or.inr ⟨r, List.mem_cons_of_mem _ hr, hcr⟩
      · rcases ih (p ++ [child]) p' h e he with h1 | ⟨r, hr, hcr⟩
        · rcases List.mem_append.mp h1 with h2 | h2
          · exact Or.inl h2
          · refine Or.inr ⟨r0, List.mem_cons_self _ _, ?_⟩
            rw [hc, List.mem_singleton.mp h2]
        · exact Or.inr ⟨r, List.mem_cons_of_mem _ hr, hcr⟩

theorem discoverLinks_mono (curr : Cell) (cols : List String) (idc : String)
    (dn : List Cell) (rows : List (List Cell)) :
    ∀ lcs p p', discoverLinks curr cols idc dn rows lcs p = Except.ok p' →
      ∃ l, p' = p ++ l := by
  intro lcs
  induction lcs with
  | nil =>
    intro p p' h
    simp only [discoverLinks] at h
    cases h
    exact ⟨[], by simp⟩
  | cons lc lcs ih =>
    intro p p' h
    simp only [discoverLinks] at h
    cases hdr : discoverRows cols idc dn (rows.filter (fun r => matchCell cols r lc curr)) p with
    | error e => rw [hdr] at h; cases h
    | ok p1 =>
      rw [hdr] at h
      simp only at h
      obtain ⟨l1, hl1⟩ := discoverRows_mono cols idc dn _ p p1 hdr
      obtain ⟨l2, hl2⟩ := ih p1 p' h
      exact ⟨l1 ++ l2, by simp [hl2, hl1]⟩

theorem discoverLinks_cover (curr : Cell) (cols : List String) (idc : String)
    (dn : List Cell) (rows : List (List Cell)) :
    ∀ lcs p p', discoverLinks curr cols idc dn rows lcs p = Except.ok p' →
      ∀ lc ∈ lcs, ∀ r ∈ rows, matchCell cols r lc curr = true →
        ∃ c, cellAt cols r idc = some c ∧ (c ∈ dn ∨ c ∈ p') := by
  intro lcs
  induction lcs with
  | nil => intro p p' _ lc hlc; cases hlc
  | cons lc0 lcs ih =>
    intro p p' h lc hlc r hr hm
    simp only [discoverLinks] at h
    cases hdr : discoverRows cols idc dn (rows.filter (fun r => matchCell cols r lc0 curr)) p with
    | error e => rw [hdr] at h; cases h
    | ok p1 =>
      rw [hdr] at h
      simp only at h
      rcases List.mem_cons.mp hlc with hhead | htail
      · subst hhead
        have hrf : r ∈ rows.filter (fun r => matchCell cols r lc curr) :=
          List.mem_filter.mpr ⟨hr, hm⟩
        obtain ⟨c, hc, hcase⟩ := discoverRows_cover cols idc dn _ p p1 hdr r hrf
        refine ⟨c, hc, ?_⟩
        rcases hcase with h1 | h1
        · exact Or.inl h1
        · obtain ⟨l, hl⟩ := discoverLinks_mono curr cols idc dn rows lcs p1 p' h
          exact Or.inr (hl ▸ List.mem_append_left l h1)
      · exact ih p1 p' h lc htail r hr hm

theorem discoverLinks_new (curr : Cell) (cols : List String) (idc : String)
    (dn : List Cell) (rows : List (List Cell)) :
    ∀ lcs p p', discoverLinks curr cols idc dn rows lcs p = Except.ok p' →
      ∀ e ∈ p', e ∈ p ∨ ∃ lc ∈ lcs, ∃ r ∈ rows,
        matchCell cols r lc curr = true ∧ cellAt cols r idc = some e := by
  intro lcs
  induction lcs with
  | nil =>
    intro p p' h e he
    simp only [discoverLinks] at h
    cases h
    exact Or.inl he
  | cons lc0 lcs ih =>
    intro p p' h e he
    simp only [discoverLinks] at h
    cases hdr : discoverRows cols idc dn (rows.filter (fun r => matchCell cols r lc0 curr)) p with
    | error e' => rw [hdr] at h; cases h
    | ok p1 =>
      rw [hdr] at h
      simp only at h
      rcases ih p1 p' h e he with h1 | ⟨lc, hlc, r, hr, hm, hc⟩
      · rcases discoverRows_new cols idc dn _ p p1 hdr e h1 with h2 | ⟨r, hrf, hc⟩
        · exact Or.inl h2
        · have := List.mem_filter.mp hrf
          exact Or.inr ⟨lc0, List.mem_cons_self _ _, r, this.1, this.2, hc⟩
      · exact Or.inr ⟨lc, List.mem_cons_of_mem _ hlc, r, hr, hm, hc⟩

/-! ### Per-table step lemmas -/

theorem dAfterHit_mono (curr : Cell) (node : String) (t : Table)
    (d : List (String × List Cell)) (n : String) :
    ∃ l, deletedOf (dAfterHit curr node t d) n = deletedOf d n ++ l := by
  unfold dAfterHit
  split
  · exact deletedOf_record_mono d node curr n
  · exact ⟨[], by simp⟩

theorem dAfterHit_new (curr : Cell) (node : String) (t : Table)
    (d : List (String × List Cell)) (n : String) (c : Cell)
    (h : c ∈ deletedOf (dAfterHit curr node t d) n) : c ∈ deletedOf d n ∨ c = curr := by
  unfold dAfterHit at h
  split at h
  · exact deletedOf_record_new d node curr n c h
  · exact Or.inl h

theorem dAfterHit_of_no_hit (curr : Cell) (node : String) (t : Table)
    (d : List (String × List Cell))
    (h : ∀ r ∈ t.rows, matchCell t.cols r (idCol node) curr = false) :
    dAfterHit curr node t d = d := by
  unfold dAfterHit
  rw [directDrop_flag_false node t curr h]
  rfl

theorem tableStep_ok_elim (curr : Cell) (node : String) (t : Table) (pending : List Cell)
    (d : List (String × List Cell)) (t' : Table) (p1 : List Cell)
    (d1 : List (String × List Cell))
    (h : tableStep curr node t pending d = Except.ok (t', p1, d1)) :
    t' = (directDrop node t curr).1 ∧ d1 = dAfterHit curr node t d ∧
      discoverLinks curr t'.cols (idCol node) (deletedOf d1 node) t'.rows
        (linkCols t'.cols) pending = Except.ok p1 := by
  unfold tableStep at h
  cases hdl : discoverLinks curr (directDrop node t curr).1.cols (idCol node)
      (deletedOf (dAfterHit curr node t d) node) (directDrop node t curr).1.rows
      (linkCols (directDrop node t curr).1.cols) pending with
  | error e => rw [hdl] at h; cases h
  | ok p =>
    rw [hdl] at h
    simp only at h
    cases h
    exact ⟨rfl, rfl, hdl⟩

theorem tableStep_eq_error (curr : Cell) (node : String) (t : Table) (pending : List Cell)
    (d : List (String × List Cell)) (msg : String)
    (hdl : discoverLinks curr (directDrop node t curr).1.cols (idCol node)
      (deletedOf (dAfterHit curr node t d) node) (directDrop node t curr).1.rows
      (linkCols (directDrop node t curr).1.cols) pending = Except.error msg) :
    tableStep curr node t pending d = Except.error msg := by
  unfold tableStep
  rw [hdl]

/-! ### processTables lemmas -/

theorem processTables_evolve (curr : Cell) :
    ∀ ts pending d ts' p' d',
      processTables curr ts pending d = Except.ok (ts', p', d') → tablesEvolve ts ts' := by
  intro ts
  induction ts with
  | nil =>
    intro pending d ts' p' d' h
    simp only [processTables] at h
    cases h
    exact List.Forall₂.nil
  | cons q rest ih =>
    obtain ⟨node, t⟩ := q
    intro pending d ts' p' d' h
    simp only [processTables] at h
    cases hts : tableStep curr node t pending d with
    | error e => rw [hts] at h; cases h
    | ok res =>
      obtain ⟨t', p1, d1⟩ := res
      rw [hts] at h
      simp only at h
      cases hpt : processTables curr rest p1 d1 with
      | error e => rw [hpt] at h; cases h
      | ok res2 =>
        obtain ⟨ts2, p2, d2⟩ := res2
        rw [hpt] at h
        simp only at h
        cases h
        obtain ⟨ht', _, _⟩ := tableStep_ok_elim curr node t pending d t' p1 d1 hts
        refine List.Forall₂.cons ⟨rfl, ?_, ?_⟩ (ih p1 d1 _ _ _ hpt)
        · rw [ht']; exact directDrop_cols node t curr
        · rw [ht']; exact directDrop_rows node t curr

theorem processTables_pending (curr : Cell) :
    ∀ ts pending d ts' p' d',
      processTables curr ts pending d = Except.ok (ts', p', d') →
        ∃ l, p' = pending ++ l := by
  intro ts
  induction ts with
  | nil =>
    intro pending d ts' p' d' h
    simp only [processTables] at h
    cases h
    exact ⟨[], by simp⟩
  | cons q rest ih =>
    obtain ⟨node, t⟩ := q
    intro pending d ts' p' d' h
    simp only [processTables] at h
    cases hts : tableStep curr node t pending d with
    | error e => rw [hts] at h; cases h
    | ok res =>
      obtain ⟨t', p1, d1⟩ := res
      rw [hts] at h
      simp only at h
      cases hpt : processTables curr rest p1 d1 with
      | error e => rw [hpt] at h; cases h
      | ok res2 =>
        obtain ⟨ts2, p2, d2⟩ := res2
        rw [hpt] at h
        simp only at h
        cases h
        obtain ⟨_, _, hdl⟩ := tableStep_ok_elim curr node t pending d t' p1 d1 hts
        obtain ⟨l1, hl1⟩ := discoverLinks_mono curr t'.cols (idCol node)
          (deletedOf d1 node) t'.rows (linkCols t'.cols) pending p1 hdl
        obtain ⟨l2, hl2⟩ := ih p1 d1 _ _ _ hpt
        exact ⟨l1 ++ l2, by simp [hl2, hl1]⟩

theorem processTables_deleted_mono (curr : Cell) :
    ∀ ts pending d ts' p' d',
      processTables curr ts pending d = Except.ok (ts', p', d') →
        ∀ n, ∃ l, deletedOf d' n = deletedOf d n ++ l := by
  intro ts
  induction ts with
  | nil =>
    intro pending d ts' p' d' h n
    simp only [processTables] at h
    cases h
    exact ⟨[], by simp⟩
  | cons q rest ih =>
    obtain ⟨node, t⟩ := q
    intro pending d ts' p' d' h n
    simp only [processTables] at h
    cases hts : tableStep curr node t pending d with
    | error e => rw [hts] at h; cases h
    | ok res =>
      obtain ⟨t', p1, d1⟩ := res
      rw [hts] at h
      simp only at h
      cases hpt : processTables curr rest p1 d1 with
      | error e => rw [hpt] at h; cases h
      | ok res2 =>
        obtain ⟨ts2, p2, d2⟩ := res2
        rw [hpt] at h
        simp only at h
        cases h
        obtain ⟨_, hd1, _⟩ := tableStep_ok_elim curr node t pending d t' p1 d1 hts
        obtain ⟨l2, hl2⟩ := ih p1 d1 _ _ _ hpt n
        obtain ⟨l1, hl1⟩ := dAfterHit_mono curr node t d n
        exact ⟨l1 ++ l2, by rw [hl2, hd1, hl1, List.append_assoc]⟩

theorem processTables_deleted_new (curr : Cell) :
    ∀ ts pending d ts' p' d',
      processTables curr ts pending d = Except.ok (ts', p', d') →
        ∀ n c, c ∈ deletedOf d' n → c ∈ deletedOf d n ∨ c = curr := by
  intro ts
  induction ts with
  | nil =>
    intro pending d ts' p' d' h n c hc
    simp only [processTables] at h
    cases h
    exact Or.inl hc
  | cons q rest ih =>
    obtain ⟨node, t⟩ := q
    intro pending d ts' p' d' h n c hc
    simp only [processTables] at h
    cases hts : tableStep curr node t pending d with
    | error e => rw [hts] at h; cases h
    | ok res =>
      obtain ⟨t', p1, d1⟩ := res
      rw [hts] at h
      simp only at h
      cases hpt : processTables curr rest p1 d1 with
      | error e => rw [hpt] at h; cases h
      | ok res2 =>
        obtain ⟨ts2, p2, d2⟩ := res2
        rw [hpt] at h
        simp only at h
        cases h
        obtain ⟨_, hd1, _⟩ := tableStep_ok_elim curr node t pending d t' p1 d1 hts
        rcases ih p1 d1 _ _ _ hpt n c hc with h1 | h1
        · rw [hd1] at h1
          exact dAfterHit_new curr node t d n c h1
        · exact Or.inr h1

theorem processTables_clears (curr : Cell) :
    ∀ ts pending d ts' p' d',
      processTables curr ts pending d = Except.ok (ts', p', d') →
        clearedIn curr ts' := by
  intro ts
  induction ts with
  | nil =>
    intro pending d ts' p' d' h
    simp only [processTables] at h
    cases h
    intro q hq
    cases hq
  | cons q rest ih =>
    obtain ⟨node, t⟩ := q
    intro pending d ts' p' d' h
    simp only [processTables] at h
    cases hts : tableStep curr node t pending d with
    | error e => rw [hts] at h; cases h
    | ok res =>
      obtain ⟨t', p1, d1⟩ := res
      rw [hts] at h
      simp only at h
      cases hpt : processTables curr rest p1 d1 with
      | error e => rw [hpt] at h; cases h
      | ok res2 =>
        obtain ⟨ts2, p2, d2⟩ := res2
        rw [hpt] at h
        simp only at h
        cases h
        obtain ⟨ht', _, _⟩ := tableStep_ok_elim curr node t pending d t' p1 d1 hts
        intro q hq r hr
        rcases List.mem_cons.mp hq with hhead | htail
        · subst hhead
          have hcols : t'.cols = t.cols := ht' ▸ directDrop_cols node t curr
          simp only [hcols]
          refine directDrop_clear node t curr r ?_
          rw [← ht']
          exact hr
        · exact ih p1 d1 _ _ _ hpt q htail r hr

theorem processTables_cover (curr : Cell) :
    ∀ ts pending d ts' p' d',
      processTables curr ts pending d = Except.ok (ts', p', d') →
        ∀ q ∈ ts', ∀ lc ∈ linkCols q.2.cols, ∀ r ∈ q.2.rows,
          matchCell q.2.cols r lc curr = true →
            ∃ c, cellAt q.2.cols r (idCol q.1) = some c ∧
              (c ∈ deletedOf d' q.1 ∨ c ∈ p') := by
  intro ts
  induction ts with
  | nil =>
    intro pending d ts' p' d' h q hq
    simp only [processTables] at h
    cases h
    cases hq
  | cons q0 rest ih =>
    obtain ⟨node, t⟩ := q0
    intro pending d ts' p' d' h q hq lc hlc r hr hm
    simp only [processTables] at h
    cases hts : tableStep curr node t pending d with
    | error e => rw [hts] at h; cases h
    | ok res =>
      obtain ⟨t', p1, d1⟩ := res
      rw [hts] at h
      simp only at h
      cases hpt : processTables curr rest p1 d1 with
      | error e => rw [hpt] at h; cases h
      | ok res2 =>
        obtain ⟨ts2, p2, d2⟩ := res2
        rw [hpt] at h
        simp only at h
        cases h
        obtain ⟨_, _, hdl⟩ := tableStep_ok_elim curr node t pending d t' p1 d1 hts
        rcases List.mem_cons.mp hq with hhead | htail
        · subst hhead
          obtain ⟨c, hc, hcase⟩ := discoverLinks_cover curr t'.cols (idCol node)
            (deletedOf d1 node) t'.rows (linkCols t'.cols) pending p1 hdl lc hlc r hr hm
          refine ⟨c, hc, ?_⟩
          rcases hcase with h1 | h1
          · obtain ⟨l, hl⟩ := processTables_deleted_mono curr rest p1 d1 _ _ _ hpt node
            exact Or.inl (hl ▸ List.mem_append_left l h1)
          · obtain ⟨l, hl⟩ := processTables_pending curr rest p1 d1 _ _ _ hpt
            exact Or.inr (hl ▸ List.mem_append_left l h1)
        · exact ih p1 d1 _ _ _ hpt q htail lc hlc r hr hm

theorem processTables_error (curr : Cell) :
    ∀ ts (node : String) (t : Table) (lc : String) (r : List Cell),
      (node, t) ∈ ts → idCol node ∉ t.cols → lc ∈ linkCols t.cols → r ∈ t.rows →
      matchCell t.cols r lc curr = true →
      ∀ pending d, ∃ msg, processTables curr ts pending d = Except.error msg := by
  intro ts
  induction ts with
  | nil => intro node t lc r hmem; cases hmem
  | cons q0 rest ih =>
    obtain ⟨node0, t0⟩ := q0
    intro node t lc r hmem hid hlc hr hm pending d
    rcases List.mem_cons.mp hmem with hhead | htail
    · have hn : node = node0 := congrArg Prod.fst hhead
      have ht : t = t0 := congrArg Prod.snd hhead
      rw [hn, ht] at hid
      rw [ht] at hlc hr hm
      have hddrop : directDrop node0 t0 curr = (t0, false) :=
        directDrop_of_not_mem node0 t0 curr hid
      cases hdl : discoverLinks curr (directDrop node0 t0 curr).1.cols (idCol node0)
          (deletedOf (dAfterHit curr node0 t0 d) node0) (directDrop node0 t0 curr).1.rows
          (linkCols (directDrop node0 t0 curr).1.cols) pending with
      | ok p1 =>
        exfalso
        rw [hddrop] at hdl
        obtain ⟨c, hc, _⟩ := discoverLinks_cover curr t0.cols (idCol node0)
          (deletedOf (dAfterHit curr node0 t0 d) node0) t0.rows (linkCols t0.cols) pending p1
          hdl lc hlc r hr hm
        rw [cellAt_eq_none t0.cols r (idCol node0) hid] at hc
        cases hc
      | error msg =>
        refine ⟨msg, ?_⟩
        simp only [processTables]
        rw [tableStep_eq_error curr node0 t0 pending d msg hdl]
    · cases hts : tableStep curr node0 t0 pending d with
      | error msg =>
        refine ⟨msg, ?_⟩
        simp only [processTables]
        rw [hts]
      | ok res =>
        obtain ⟨t', p1, d1⟩ := res
        obtain ⟨msg, hmsg⟩ := ih node t lc r htail hid hlc hr hm p1 d1
        refine ⟨msg, ?_⟩
        simp only [processTables]
        rw [hts]
        simp only
        rw [hmsg]

theorem processTables_no_hit (curr : Cell) :
    ∀ ts pending d ts' p' d',
      clearedIn curr ts → linkSafe curr ts →
      processTables curr ts pending d = Except.ok (ts', p', d') →
      d' = d ∧ ∀ e ∈ p', e ∈ pending ∨ e = none := by
  intro ts
  induction ts with
  | nil =>
    intro pending d ts' p' d' _ _ h
    simp only [processTables] at h
    cases h
    exact ⟨rfl, fun e he => Or.inl he⟩
  | cons q0 rest ih =>
    obtain ⟨node, t⟩ := q0
    intro pending d ts' p' d' hcl hls h
    simp only [processTables] at h
    cases hts : tableStep curr node t pending d with
    | error e => rw [hts] at h; cases h
    | ok res =>
      obtain ⟨t', p1, d1⟩ := res
      rw [hts] at h
      simp only at h
      cases hpt : processTables curr rest p1 d1 with
      | error e => rw [hpt] at h; cases h
      | ok res2 =>
        obtain ⟨ts2, p2, d2⟩ := res2
        rw [hpt] at h
        simp only at h
        cases h
        obtain ⟨ht', hd1, hdl⟩ := tableStep_ok_elim curr node t pending d t' p1 d1 hts
        have hclhead : ∀ r ∈ t.rows, matchCell t.cols r (idCol node) curr = false :=
          fun r hr => hcl (node, t) (List.mem_cons_self _ _) r hr
        have hd1d : d1 = d := hd1.trans (dAfterHit_of_no_hit curr node t d hclhead)
        have hcols : t'.cols = t.cols := ht' ▸ directDrop_cols node t curr
        have hrows : ∀ r ∈ t'.rows, r ∈ t.rows := fun r hr =>
          directDrop_rows node t curr r (ht' ▸ hr)
        have hclrest : clearedIn curr rest :=
          fun q hq => hcl q (List.mem_cons_of_mem _ hq)
        have hlsrest : linkSafe curr rest :=
          fun q hq => hls q (List.mem_cons_of_mem _ hq)
        obtain ⟨hd2, hp2⟩ := ih p1 d1 _ _ _ hclrest hlsrest hpt
        refine ⟨hd2.trans hd1d, fun e he => ?_⟩
        rcases hp2 e he with h1 | h1
        · rcases discoverLinks_new curr t'.cols (idCol node) (deletedOf d1 node) t'.rows
            (linkCols t'.cols) pending p1 hdl e h1 with h2 | ⟨lc, hlc, r, hr, hm, hc⟩
          · exact Or.inl h2
          · refine Or.inr ?_
            rw [hcols] at hlc hm hc
            have hmiss := hls (node, t) (List.mem_cons_self _ _) lc hlc r (hrows r hr) hm
            rw [hmiss] at hc
            injection hc with hinj
            exact hinj.symm
        · exact Or.inr h1

/-! ### processEntry and run lemmas -/

theorem processEntry_elim (curr : Cell) (st st' : EngState)
    (h : processEntry curr st = Except.ok st') :
    ∃ ts p d, processTables curr st.tables st.pending st.deleted = Except.ok (ts, p, d) ∧
      st' = ⟨ts, d, p, st.processed ++ [curr]⟩ := by
  unfold processEntry at h
  cases hpt : processTables curr st.tables st.pending st.deleted with
  | error e => rw [hpt] at h; cases h
  | ok res =>
    obtain ⟨ts, p, d⟩ := res
    rw [hpt] at h
    simp only at h
    cases h
    exact ⟨ts, p, d, rfl, rfl⟩

theorem run_succ_cons (fuel : Nat) (st : EngState) (curr : Cell) (rest : List Cell)
    (h : st.pending = curr :: rest) :
    run (fuel + 1) st =
      match processEntry curr { st with pending := rest } with
      | Except.error e => Except.error e
      | Except.ok st' => run fuel st' := by
  simp only [run, h]

theorem run_cleared (e : Cell) :
    ∀ fuel st fin, run fuel st = Except.ok fin →
      clearedIn e st.tables → clearedIn e fin.tables := by
  intro fuel
  induction fuel with
  | zero =>
    intro st fin h hc
    cases h
    exact hc
  | succ n ih =>
    intro st fin h hc
    cases hp : st.pending with
    | nil =>
      rw [run, hp] at h
      cases h
      exact hc
    | cons curr rest =>
      rw [run_succ_cons n st curr rest hp] at h
      cases hpe : processEntry curr { st with pending := rest } with
      | error e' => rw [hpe] at h; cases h
      | ok st' =>
        rw [hpe] at h
        simp only at h
        obtain ⟨ts, p, d, hpt, hst'⟩ := processEntry_elim curr _ st' hpe
        have hev : tablesEvolve st.tables ts :=
          processTables_evolve curr st.tables rest st.deleted ts p d hpt
        have hc' : clearedIn e st'.tables := by
          rw [hst']
          exact clearedIn_mono e _ _ hev hc
        exact ih st' fin h hc'

theorem run_processed_mono :
    ∀ fuel st fin, run fuel st = Except.ok fin →
      ∃ l, fin.processed = st.processed ++ l := by
  intro fuel
  induction fuel with
  | zero =>
    intro st fin h
    cases h
    exact ⟨[], by simp⟩
  | succ n ih =>
    intro st fin h
    cases hp : st.pending with
    | nil =>
      rw [run, hp] at h
      cases h
      exact ⟨[], by simp⟩
    | cons curr rest =>
      rw [run_succ_cons n st curr rest hp] at h
      cases hpe : processEntry curr { st with pending := rest } with
      | error e' => rw [hpe] at h; cases h
      | ok st' =>
        rw [hpe] at h
        simp only at h
        obtain ⟨ts, p, d, hpt, hst'⟩ := processEntry_elim curr _ st' hpe
        obtain ⟨l, hl⟩ := ih st' fin h
        refine ⟨[curr] ++ l, ?_⟩
        rw [hl, hst']
        simp

theorem run_clears_pending :
    ∀ fuel st fin, run fuel st = Except.ok fin → fin.pending = [] →
      ∀ e ∈ st.pending, clearedIn e fin.tables := by
  intro fuel
  induction fuel with
  | zero =>
    intro st fin h hfin e he
    cases h
    rw [hfin] at he
    cases he
  | succ n ih =>
    intro st fin h hfin e he
    cases hp : st.pending with
    | nil =>
      rw [hp] at he
      cases he
    | cons curr rest =>
      rw [run_succ_cons n st curr rest hp] at h
      cases hpe : processEntry curr { st with pending := rest } with
      | error e' => rw [hpe] at h; cases h
      | ok st' =>
        rw [hpe] at h
        simp only at h
        obtain ⟨ts, p, d, hpt, hst'⟩ := processEntry_elim curr _ st' hpe
        rw [hp] at he
        rcases List.mem_cons.mp he with hcurr | hrest
        · have hc : clearedIn e st'.tables := by
            rw [hst', hcurr]
            exact processTables_clears curr st.tables rest st.deleted ts p d hpt
          exact run_cleared e n st' fin h hc
        · refine ih st' fin h hfin e ?_
          rw [hst']
          obtain ⟨l, hl⟩ := processTables_pending curr st.tables rest st.deleted ts p d hpt
          show e ∈ p
          rw [hl]
          exact List.mem_append_left l hrest

theorem run_pending_processed :
    ∀ fuel st fin, run fuel st = Except.ok fin → fin.pending = [] →
      ∀ e ∈ st.pending, e ∈ fin.processed := by
  intro fuel
  induction fuel with
  | zero =>
    intro st fin h hfin e he
    cases h
    rw [hfin] at he
    cases he
  | succ n ih =>
    intro st fin h hfin e he
    cases hp : st.pending with
    | nil =>
      rw [hp] at he
      cases he
    | cons curr rest =>
      rw [run_succ_cons n st curr rest hp] at h
      cases hpe : processEntry curr { st with pending := rest } with
      | error e' => rw [hpe] at h; cases h
      | ok st' =>
        rw [hpe] at h
        simp only at h
        obtain ⟨ts, p, d, hpt, hst'⟩ := processEntry_elim curr _ st' hpe
        rw [hp] at he
        rcases List.mem_cons.mp he with hcurr | hrest
        · obtain ⟨l, hl⟩ := run_processed_mono n st' fin h
          rw [hl, hst', hcurr]
          simp
        · refine ih st' fin h hfin e ?_
          rw [hst']
          obtain ⟨l, hl⟩ := processTables_pending curr st.tables rest st.deleted ts p d hpt
          show e ∈ p
          rw [hl]
          exact List.mem_append_left l hrest

/-! ### The loop invariant -/

/-- Deletion records only name entries that no longer match the owning table's
identifier column. -/
def InvDel (st : EngState) : Prop :=
  ∀ q ∈ st.tables, ∀ c ∈ deletedOf st.deleted q.1, ∀ r ∈ q.2.rows,
    matchCell q.2.cols r (idCol q.1) c = false

/-- Every surviving row whose link value matches a processed entry has its own
identifier either recorded as deleted, still pending, or already processed. -/
def InvLink (st : EngState) : Prop :=
  ∀ e ∈ st.processed, ∀ q ∈ st.tables, ∀ lc ∈ linkCols q.2.cols, ∀ r ∈ q.2.rows,
    matchCell q.2.cols r lc e = true →
      ∃ c, cellAt q.2.cols r (idCol q.1) = some c ∧
        (c ∈ deletedOf st.deleted q.1 ∨ c ∈ st.pending ∨ c ∈ st.processed)

/-- The loop invariant of the worklist algorithm. -/
def Inv (st : EngState) : Prop :=
  (∀ e ∈ st.processed, clearedIn e st.tables) ∧ InvDel st ∧ InvLink st

theorem Inv_init (ws : List (String × Table)) (request : List Cell) :
    Inv (initState ws request) := by
  refine ⟨?_, ?_, ?_⟩
  · intro e he; cases he
  · intro q hq c hc
    rw [show (initState ws request).deleted = ws.map (fun p => (p.1, [])) from rfl,
      deletedOf_init ws q.1] at hc
    cases hc
  · intro e he; cases he

theorem processEntry_inv (st : EngState) (curr : Cell) (rest : List Cell) (st' : EngState)
    (hInv : Inv st) (hp : st.pending = curr :: rest)
    (hpe : processEntry curr { st with pending := rest } = Except.ok st') : Inv st' := by
  obtain ⟨ts', p', d', hpt, hst'⟩ := processEntry_elim curr _ st' hpe
  have hev : tablesEvolve st.tables ts' :=
    processTables_evolve curr st.tables rest st.deleted ts' p' d' hpt
  subst hst'
  refine ⟨?_, ?_, ?_⟩
  · intro e he
    rcases List.mem_append.mp he with hold | hnew
    · exact clearedIn_mono e _ _ hev (hInv.1 e hold)
    · rw [List.mem_singleton.mp hnew]
      exact processTables_clears curr st.tables rest st.deleted ts' p' d' hpt
  · intro q hq c hc r hr
    rcases processTables_deleted_new curr st.tables rest st.deleted ts' p' d' hpt q.1 c hc
      with h1 | h1
    · obtain ⟨pq, hpq, hkey, hcols, hrows⟩ := tablesEvolve_mem _ _ hev q hq
      rw [hkey] at h1
      rw [hkey, hcols]
      exact hInv.2.1 pq hpq c h1 r (hrows r hr)
    · rw [h1]
      exact processTables_clears curr st.tables rest st.deleted ts' p' d' hpt q hq r hr
  · intro e he q hq lc hlc r hr hm
    rcases List.mem_append.mp he with hold | hnew
    · obtain ⟨pq, hpq, hkey, hcols, hrows⟩ := tablesEvolve_mem _ _ hev q hq
      rw [hcols] at hlc hm
      obtain ⟨c, hc, hcase⟩ := hInv.2.2 e hold pq hpq lc hlc r (hrows r hr) hm
      refine ⟨c, ?_, ?_⟩
      · rw [hkey, hcols]
        exact hc
      · rcases hcase with h1 | h1 | h1
        · obtain ⟨l, hl⟩ :=
            processTables_deleted_mono curr st.tables rest st.deleted ts' p' d' hpt pq.1
          rw [hkey]
          exact Or.inl (hl ▸ List.mem_append_left l h1)
        · rw [hp] at h1
          rcases List.mem_cons.mp h1 with hcurr | hrest
          · refine Or.inr (Or.inr ?_)
            rw [hcurr]
            simp
          · obtain ⟨l, hl⟩ :=
              processTables_pending curr st.tables rest st.deleted ts' p' d' hpt
            exact Or.inr (Or.inl (hl ▸ List.mem_append_left l hrest))
        · exact Or.inr (Or.inr (List.mem_append_left _ h1))
    · have hecurr : e = curr := List.mem_singleton.mp hnew
      rw [hecurr] at hm
      obtain ⟨c, hc, hcase⟩ :=
        processTables_cover curr st.tables rest st.deleted ts' p' d' hpt q hq lc hlc r hr hm
      exact ⟨c, hc, hcase.imp id Or.inl⟩

theorem run_inv :
    ∀ fuel st fin, Inv st → run fuel st = Except.ok fin → Inv fin := by
  intro fuel
  induction fuel with
  | zero =>
    intro st fin hInv h
    cases h
    exact hInv
  | succ n ih =>
    intro st fin hInv h
    cases hp : st.pending with
    | nil =>
      rw [run, hp] at h
      cases h
      exact hInv
    | cons curr rest =>
      rw [run_succ_cons n st curr rest hp] at h
      cases hpe : processEntry curr { st with pending := rest } with
      | error e' => rw [hpe] at h; cases h
      | ok st' =>
        rw [hpe] at h
        simp only at h
        exact ih st' fin (processEntry_inv st curr rest st' hInv hp hpe) h

/-- At worklist exhaustion, every processed entry is link-safe: any surviving row whose
link value matches it must have a missing identifier cell. -/
theorem inv_final_linkSafe (st : EngState) (hInv : Inv st) (hp : st.pending = []) :
    ∀ e ∈ st.processed, linkSafe e st.tables := by
  intro e he q hq lc hlc r hr hm
  obtain ⟨c, hc, hcase⟩ := hInv.2.2 e he q hq lc hlc r hr hm
  rcases hcase with h1 | h1 | h1
  · cases c with
    | none => exact hc
    | some s =>
      exfalso
      have hfalse := hInv.2.1 q hq (some s) h1 r hr
      have htrue := matchCell_of_cellAt q.2.cols r (idCol q.1) s hc
      simp [htrue] at hfalse
  · rw [hp] at h1
    cases h1
  · cases c with
    | none => exact hc
    | some s =>
      exfalso
      have hfalse := hInv.1 (some s) h1 q hq r hr
      have htrue := matchCell_of_cellAt q.2.cols r (idCol q.1) s hc
      simp [htrue] at hfalse

/-! ### The second-run invariant: no entry hits anything -/

/-- An entry with no remaining direct hits and only missing-identifier link matches. -/
def GoodE (e : Cell) (ts : List (String × Table)) : Prop :=
  clearedIn e ts ∧ linkSafe e ts

/-- A state whose deletion records are empty and whose pending entries are all good. -/
def Good (st : EngState) : Prop :=
  (∀ q ∈ st.deleted, q.2 = ([] : List Cell)) ∧ ∀ e ∈ st.pending, GoodE e st.tables

theorem processEntry_good (st : EngState) (curr : Cell) (rest : List Cell) (st' : EngState)
    (hG : Good st) (hp : st.pending = curr :: rest)
    (hpe : processEntry curr { st with pending := rest } = Except.ok st') : Good st' := by
  obtain ⟨ts', p', d', hpt, hst'⟩ := processEntry_elim curr _ st' hpe
  have hev : tablesEvolve st.tables ts' :=
    processTables_evolve curr st.tables rest st.deleted ts' p' d' hpt
  have hgcurr : GoodE curr st.tables := hG.2 curr (by rw [hp]; exact List.mem_cons_self _ _)
  obtain ⟨hd', hp'⟩ :=
    processTables_no_hit curr st.tables rest st.deleted ts' p' d' hgcurr.1 hgcurr.2 hpt
  subst hst'
  refine ⟨?_, ?_⟩
  · intro q hq
    refine hG.1 q ?_
    rw [← hd']
    exact hq
  · intro e he
    rcases hp' e he with h1 | h1
    · have hge : GoodE e st.tables := hG.2 e (by rw [hp]; exact List.mem_cons_of_mem _ h1)
      exact ⟨clearedIn_mono e _ _ hev hge.1, linkSafe_mono e _ _ hev hge.2⟩
    · rw [h1]
      exact ⟨clearedIn_none _, linkSafe_none _⟩

theorem run_good :
    ∀ fuel st fin, Good st → run fuel st = Except.ok fin →
      ∀ q ∈ fin.deleted, q.2 = ([] : List Cell) := by
  intro fuel
  induction fuel with
  | zero =>
    intro st fin hG h
    cases h
    exact hG.1
  | succ n ih =>
    intro st fin hG h
    cases hp : st.pending with
    | nil =>
      rw [run, hp] at h
      cases h
      exact hG.1
    | cons curr rest =>
      rw [run_succ_cons n st curr rest hp] at h
      cases hpe : processEntry curr { st with pending := rest } with
      | error e' => rw [hpe] at h; cases h
      | ok st' =>
        rw [hpe] at h
        simp only at h
        exact ih st' fin (processEntry_good st curr rest st' hG hp hpe) h

/-! ### Concrete examples (the specification's study/sample scenario and variants) -/

/-- The study/sample working set of the specification's concrete scenario. -/
def exWS : List (String × Table) :=
  [("study", ⟨["study_id", "study_name"],
      [[some "S1", some "Alpha"], [some "S2", some "Beta"]]⟩),
   ("sample", ⟨["sample_id", "sample.study_id", "sample_type"],
      [[some "A", some "S1", some "tumor"],
       [some "B", some "S1", some "normal"],
       [some "C", some "S2", some "tumor"]]⟩)]

def exSt : EngState := initState exWS [some "S1"]

def exFinal : EngState := ((run 10 exSt).toOption).getD (initState [] [])

def ex2Final : EngState :=
  ((run 10 (initState exFinal.tables [some "S1"])).toOption).getD (initState [] [])

/-- A working set whose sample table has a row with a missing identifier cell. -/
def cexWS : List (String × Table) :=
  [("study", ⟨["study_id", "study_name"],
      [[some "S1", some "Alpha"], [some "S2", some "Beta"]]⟩),
   ("sample", ⟨["sample_id", "sample.study_id"],
      [[none, some "S1"], [some "C", some "S2"]]⟩)]

def cexFinal : EngState :=
  ((run 10 (initState cexWS [some "S1"])).toOption).getD (initState [] [])

def cexSample : Table :=
  ⟨["sample_id", "sample.study_id"], [[none, some "S1"], [some "C", some "S2"]]⟩

/-- A working set whose only table has a link column but no own identifier column. -/
def c9WS : List (String × Table) :=
  [("weird", ⟨["name", "x.thing_id"], [[some "W", some "S1"]]⟩)]

/-! ### Claim theorems: the deletion engine -/

/-- C1: for every entry in the initial removal request, after the deletion engine runs
the worklist to exhaustion, no table retained in the working set has a row whose
identifier column `<node>_id` equals that entry. -/
theorem C1_direct_removal_complete (fuel : Nat) (st fin : EngState) (s : String)
    (h1 : run fuel st = Except.ok fin) (h2 : fin.pending = [])
    (h3 : some s ∈ st.pending) :
    ∀ q ∈ fin.tables, ∀ r ∈ q.2.rows, matchCell q.2.cols r (idCol q.1) (some s) = false :=
  fun q hq r hr => run_clears_pending fuel st fin h1 h2 (some s) h3 q hq r hr

theorem C1_witness :
    matchCell ["study_id", "study_name"] [some "S2", some "Beta"] (idCol "study")
      (some "S1") = false :=
  C1_direct_removal_complete 10 exSt exFinal "S1" (by rfl) (by rfl) (by decide)
    ("study", ⟨["study_id", "study_name"], [[some "S2", some "Beta"]]⟩) (by decide)
    [some "S2", some "Beta"] (by decide)

/-- C2 (amended): after exhaustion every initial-request entry has been processed, and
for every processed entry (initial or discovered), any surviving row whose link value
equals that entry has a missing identifier cell.  The unrestricted claim — that no
surviving row's link value equals any removed-set entry at all — is refuted by
`C2_counterexample`. -/
theorem C2_cascading_closure_amended (ws : List (String × Table)) (request : List Cell)
    (fuel : Nat) (fin : EngState)
    (h1 : run fuel (initState ws request) = Except.ok fin)
    (h2 : fin.pending = []) :
    (∀ e ∈ request, e ∈ fin.processed) ∧
    (∀ e ∈ fin.processed, ∀ q ∈ fin.tables, ∀ lc ∈ linkCols q.2.cols, ∀ r ∈ q.2.rows,
      matchCell q.2.cols r lc e = true → cellAt q.2.cols r (idCol q.1) = some none) := by
  constructor
  · exact fun e he => run_pending_processed fuel _ fin h1 h2 e he
  · have hInv : Inv fin := run_inv fuel _ fin (Inv_init ws request) h1
    exact fun e he => inv_final_linkSafe fin hInv h2 e he

/-- C2 counterexample: after an exhausted run removing `S1`, the sample row with a
missing `sample_id` survives while its link value `sample.study_id` still equals the
removed entry `S1` of the final removed set. -/
theorem C2_counterexample :
    run 10 (initState cexWS [some "S1"]) = Except.ok cexFinal ∧
    cexFinal.pending = [] ∧
    some "S1" ∈ cexFinal.processed ∧
    ("sample", cexSample) ∈ cexFinal.tables ∧
    "sample.study_id" ∈ linkCols cexSample.cols ∧
    [none, some "S1"] ∈ cexSample.rows ∧
    matchCell cexSample.cols [none, some "S1"] "sample.study_id" (some "S1") = true :=
  ⟨rfl, rfl, by decide, by decide, by decide, by decide, by decide⟩

theorem C2_witness : some "S1" ∈ cexFinal.processed :=
  (C2_cascading_closure_amended cexWS [some "S1"] 10 cexFinal (by rfl) (by rfl)).1
    (some "S1") (by decide)

/-- C8: running the engine a second time on its own cleaned working set with the same
removal request removes nothing: every per-node-kind deletion record of the second run
is empty, and no entry of the request matches any surviving row's identifier column. -/
theorem C8_rerun_removes_nothing (ws : List (String × Table)) (request : List Cell)
    (f1 f2 : Nat) (mid fin2 : EngState)
    (h1 : run f1 (initState ws request) = Except.ok mid) (h2 : mid.pending = [])
    (h3 : run f2 (initState mid.tables request) = Except.ok fin2)
    (_h4 : fin2.pending = []) :
    (∀ q ∈ fin2.deleted, q.2 = ([] : List Cell)) ∧
    (∀ e ∈ request, ∀ q ∈ mid.tables, ∀ r ∈ q.2.rows,
      matchCell q.2.cols r (idCol q.1) e = false) := by
  have hInvMid : Inv mid := run_inv f1 _ mid (Inv_init ws request) h1
  have hproc : ∀ e ∈ request, e ∈ mid.processed :=
    fun e he => run_pending_processed f1 _ mid h1 h2 e he
  have hclr : ∀ e ∈ request, clearedIn e mid.tables :=
    fun e he => hInvMid.1 e (hproc e he)
  have hls : ∀ e ∈ request, linkSafe e mid.tables :=
    fun e he => inv_final_linkSafe mid hInvMid h2 e (hproc e he)
  refine ⟨?_, fun e he q hq r hr => hclr e he q hq r hr⟩
  refine run_good f2 _ fin2 ⟨?_, ?_⟩ h3
  · intro q hq
    obtain ⟨p, _, hpq⟩ := List.mem_map.mp hq
    rw [← hpq]
  · intro e he
    exact ⟨hclr e he, hls e he⟩

theorem C8_witness : (("study", ([] : List Cell)) : String × List Cell).2 = [] :=
  (C8_rerun_removes_nothing exWS [some "S1"] 10 10 exFinal ex2Final
      (by rfl) (by rfl) (by rfl) (by rfl)).1
    ("study", []) (by decide)

/-- C9: child discovery unconditionally reads the owning table's `<node>_id` column:
when a usable table has a link column but no own identifier column and some row's link
value equals the entry about to be processed, the run aborts with an error. -/
theorem C9_missing_id_aborts (fuel : Nat) (st : EngState) (curr : Cell) (rest : List Cell)
    (node : String) (t : Table) (lc : String) (r : List Cell)
    (hp : st.pending = curr :: rest) (hmem : (node, t) ∈ st.tables)
    (hid : idCol node ∉ t.cols) (hlc : lc ∈ linkCols t.cols) (hr : r ∈ t.rows)
    (hm : matchCell t.cols r lc curr = true) :
    ∃ msg, run (fuel + 1) st = Except.error msg := by
  obtain ⟨msg, hmsg⟩ := processTables_error curr st.tables node t lc r hmem hid hlc hr hm
    rest st.deleted
  refine ⟨msg, ?_⟩
  have hpe : processEntry curr { st with pending := rest } = Except.error msg := by
    unfold processEntry
    dsimp only
    rw [hmsg]
  rw [run_succ_cons fuel st curr rest hp, hpe]

theorem C9_witness : ∃ msg, run (1 + 1) (initState c9WS [some "S1"]) = Except.error msg :=
  C9_missing_id_aborts 1 (initState c9WS [some "S1"]) (some "S1") [] "weird"
    ⟨["name", "x.thing_id"], [[some "W", some "S1"]]⟩ "x.thing_id" [some "W", some "S1"]
    (by rfl) (by decide) (by decide) (by decide) (by decide) (by decide)

/-! ### Claim theorems: Table Store, worklist initialization, Link Resolver -/

/-- A node sheet containing a literal "NA" cell. -/
def naSheet : Sheet := ⟨["study_id", "study_name"], [["S1", "NA"]]⟩

/-- C3 (amended): the stored table is the read frame itself — every source row and
column is kept (only the usability copy drops blanks), and the missing-value tokens
are already normalized in it at load time, so the stored table does not retain the
original "NA"-token cell text. -/
theorem C3_store_normalization (s : Sheet) (t : Table) (h : loadNode s = some t) :
    t.cols = s.header ∧ t.rows = s.body.map (fun r => r.map readCell) := by
  unfold loadNode at h
  simp only at h
  split at h
  · cases h
    exact ⟨rfl, rfl⟩
  · cases h

/-- C3 counterexample: a usable sheet with an "NA" cell is stored with that cell
already normalized to missing, not with the original text. -/
theorem C3_counterexample :
    loadNode naSheet = some ⟨["study_id", "study_name"], [[some "S1", none]]⟩ ∧
    naSheet.body = [["S1", "NA"]] ∧
    (⟨["study_id", "study_name"], [[some "S1", none]]⟩ : Table) ≠
      ⟨["study_id", "study_name"], [[some "S1", some "NA"]]⟩ :=
  ⟨rfl, rfl, by decide⟩

theorem C3_witness :
    (⟨["study_id", "study_name"], [[some "S1", none]]⟩ : Table).cols = naSheet.header ∧
    (⟨["study_id", "study_name"], [[some "S1", none]]⟩ : Table).rows =
      naSheet.body.map (fun r => r.map readCell) :=
  C3_store_normalization naSheet _ (by rfl)

/-- C4 (amended): the initial worklist keeps source order and drops blank (missing)
entries, but it does not deduplicate — each occurrence of a repeated entry is kept. -/
theorem C4_worklist_init_amended (raw : List Cell) :
    (∀ e ∈ initWorklist raw, e.isSome = true) ∧
    List.Sublist (initWorklist raw) raw ∧
    (∀ s : String, (initWorklist raw).count (some s) = raw.count (some s)) := by
  refine ⟨?_, ?_, ?_⟩
  · intro e he
    exact (List.mem_filter.mp he).2
  · exact List.filter_sublist raw
  · intro s
    exact List.count_filter (by rfl)

/-- C4 counterexample: a duplicated request entry yields a worklist that is not
duplicate-free. -/
theorem C4_counterexample : ¬ (initWorklist [some "S1", some "S1"]).Nodup := by decide

theorem C4_witness : (some "S1" : Cell).isSome = true :=
  (C4_worklist_init_amended [some "S1", none, some "S1"]).1 (some "S1") (by decide)

/-- C7 (amended): the identifier column `<node>_id` is classified as a link column
exactly when the node-kind's name itself contains a dot; for dot-free node names no
double classification occurs, but a dotted node name makes its own identifier column
a link column as well. -/
theorem C7_id_link_classification (node : String) :
    isLinkCol (idCol node) = hasDot node := by
  unfold isLinkCol idCol
  have h1 : hasDot (node ++ "_id") = hasDot node := by
    unfold hasDot
    rw [String.data_append, List.any_append]
    have h3 : ("_id".data).any (fun ch => ch == '.') = false := rfl
    rw [h3, Bool.or_false]
  have h2 : endsWithId (node ++ "_id") = true := by
    unfold endsWithId
    rw [String.data_append, List.length_append]
    have h4 : ("_id".data).length = 3 := rfl
    rw [h4, Nat.add_sub_cancel, List.drop_left]
    rfl
  rw [h1, h2, Bool.and_true]

/-- C7 counterexample: for the dotted node-kind name "a.b" the identifier column
"a.b_id" is also classified as a link column. -/
theorem C7_counterexample : isLinkCol (idCol "a.b") = true := rfl

/-! ### Claim theorems: pipeline artifacts and working-set validation -/

/-- A dataset with the study/sample sheets of the concrete scenario. -/
def exDataset : List (String × Sheet) :=
  [("study", ⟨["study_id", "study_name"], [["S1", "Alpha"], ["S2", "Beta"]]⟩),
   ("sample", ⟨["sample_id", "sample.study_id", "sample_type"],
      [["A", "S1", "tumor"], ["B", "S1", "normal"], ["C", "S2", "tumor"]]⟩)]

/-- C5 (amended): a successful run produces both artifacts, a failed run never
produces the output artifact, and fatal errors raised before the removal loop
(unreadable template or entries file) produce no artifact at all — but a fatal
error at or after the loop leaves the already-written log artifact behind
(`C5_counterexample`). -/
theorem C5_artifact_atomicity_amended (nodeCol : Option (List String))
    (d : List (String × Sheet)) (e : Option (List Cell)) (fuel : Nat) (s : Bool) :
    ((mainRun nodeCol d e fuel s).2 = true →
      (mainRun nodeCol d e fuel s).1 = [Artifact.logFile, Artifact.output]) ∧
    ((mainRun nodeCol d e fuel s).2 = false →
      Artifact.output ∉ (mainRun nodeCol d e fuel s).1) ∧
    (nodeCol = none → (mainRun nodeCol d e fuel s).1 = []) ∧
    (e = none → (mainRun nodeCol d e fuel s).1 = []) := by
  unfold mainRun
  cases nodeCol with
  | none => simp
  | some nodes =>
    simp only
    split
    · simp
    · cases e with
      | none => simp
      | some raw =>
        simp only
        cases hrun : run fuel
            (initState (buildWorkingSet d (dedupFirst nodes)) (initWorklist raw)) with
        | error msg => simp
        | ok fin => cases s <;> simp

/-- C5 counterexample: a run whose persistence step fails still leaves the log
artifact, so a fatal error does not leave "neither a log nor an output artifact". -/
theorem C5_counterexample :
    (mainRun (some ["study", "sample"]) exDataset (some [some "S1"]) 10 false).2 = false ∧
    Artifact.logFile ∈
      (mainRun (some ["study", "sample"]) exDataset (some [some "S1"]) 10 false).1 :=
  ⟨rfl, by decide⟩

theorem C5_witness :
    (mainRun (some ["study", "sample"]) exDataset (some [some "S1"]) 10 true).1 =
      [Artifact.logFile, Artifact.output] :=
  (C5_artifact_atomicity_amended (some ["study", "sample"]) exDataset
      (some [some "S1"]) 10 true).1 (by rfl)

theorem foldl_loadStep_skip (d : List (String × Sheet)) (n : String) (l2 : List String)
    (hmiss : alistLookup d n = none) :
    ∀ l1 acc, List.foldl (loadStep d) acc (l1 ++ n :: l2) =
      List.foldl (loadStep d) acc (l1 ++ l2) := by
  intro l1
  induction l1 with
  | nil =>
    intro acc
    simp only [List.nil_append, List.foldl_cons]
    have hstep : loadStep d acc n = acc := by
      unfold loadStep
      rw [hmiss]
    rw [hstep]
  | cons x l1 ih =>
    intro acc
    simp only [List.cons_append, List.foldl_cons]
    exact ih (loadStep d acc x)

/-- A dataset with a single study sheet, used for the C6 witness. -/
def exD6 : List (String × Sheet) :=
  [("study", ⟨["study_id", "study_name"], [["S1", "Alpha"]]⟩)]

/-- C6: a node-kind with no sheet of that name in the dataset is silently skipped —
the working set is exactly what it would be had the node-kind not been declared —
and if after loading everything the working set is empty, the run fails fatally with
no artifacts before any deletion logic executes. -/
theorem C6_missing_skip_empty_fatal (d : List (String × Sheet)) (n : String)
    (l1 l2 : List String) (nodes : List String) (e : Option (List Cell)) (fuel : Nat)
    (s : Bool) (hmiss : alistLookup d n = none)
    (hempty : buildWorkingSet d (dedupFirst nodes) = []) :
    buildWorkingSet d (l1 ++ n :: l2) = buildWorkingSet d (l1 ++ l2) ∧
    mainRun (some nodes) d e fuel s = ([], false) := by
  constructor
  · exact foldl_loadStep_skip d n l2 hmiss l1 []
  · simp [mainRun, hempty]

theorem C6_witness :
    buildWorkingSet exD6 (["study"] ++ "ghost" :: []) =
      buildWorkingSet exD6 (["study"] ++ []) ∧
    mainRun (some ["nothing"]) exD6 (some [some "S1"]) 5 true = ([], false) :=
  C6_missing_skip_empty_fatal exD6 "ghost" ["study"] [] ["nothing"] (some [some "S1"])
    5 true (by rfl) (by rfl)

/-! ### Claim theorems: the persister -/

theorem lookup_map_update {α : Type} (k : String) (v : α) :
    ∀ l : List (String × α), l.any (fun p => p.1 == k) = true →
      alistLookup (l.map (fun p => if p.1 == k then (p.1, v) else p)) k = some v := by
  intro l
  induction l with
  | nil => intro h; simp at h
  | cons p l ih =>
    intro h
    by_cases hk : p.1 = k
    · simp [alistLookup, hk]
    · have hb : (p.1 == k) = false := by simp [hk]
      have h' : l.any (fun p => p.1 == k) = true := by
        simp only [List.any_cons, hb, Bool.false_or] at h
        exact h
      have ih' := ih h'
      simp only [beq_iff_eq] at ih'
      simp [alistLookup, hk, ih']

theorem lookup_map_update_other {α : Type} (k : String) (v : α) (n : String) (hne : n ≠ k) :
    ∀ l : List (String × α),
      alistLookup (l.map (fun p => if p.1 == k then (p.1, v) else p)) n =
        alistLookup l n := by
  intro l
  induction l with
  | nil => rfl
  | cons p l ih =>
    have ih' := ih
    simp only [beq_iff_eq] at ih'
    by_cases hk : p.1 = k
    · have hb : (p.1 == k) = true := by simp [hk]
      have hn : ¬ p.1 = n := fun hh => hne (hh.symm.trans hk)
      simp [alistLookup, hb, hn, ih']
    · have hb : (p.1 == k) = false := by simp [hk]
      by_cases hn : p.1 = n
      · simp [alistLookup, hb, hn, hne]
      · simp [alistLookup, hb, hn, ih']

theorem lookup_of_any_false {α : Type} (k : String) :
    ∀ l : List (String × α), l.any (fun p => p.1 == k) = false →
      alistLookup l k = none := by
  intro l
  induction l with
  | nil => intro _; rfl
  | cons p l ih =>
    intro h
    simp only [List.any_cons, Bool.or_eq_false_iff] at h
    have hk : ¬ p.1 = k := by
      intro hh
      rw [hh] at h
      simp at h
    simp [alistLookup, hk, ih h.2]

theorem lookup_append_of_none {α : Type} (n : String) :
    ∀ (l1 l2 : List (String × α)), alistLookup l1 n = none →
      alistLookup (l1 ++ l2) n = alistLookup l2 n := by
  intro l1 l2
  induction l1 with
  | nil => intro _; rfl
  | cons p l1 ih =>
    intro h
    by_cases hn : p.1 = n
    · simp [alistLookup, hn] at h
    · simp only [alistLookup, if_neg hn] at h
      simp only [List.cons_append, alistLookup, if_neg hn]
      exact ih h

theorem lookup_append_of_some {α : Type} (n : String) (v : α) :
    ∀ (l1 l2 : List (String × α)), alistLookup l1 n = some v →
      alistLookup (l1 ++ l2) n = some v := by
  intro l1 l2
  induction l1 with
  | nil => intro h; cases h
  | cons p l1 ih =>
    intro h
    by_cases hn : p.1 = n
    · simp only [alistLookup, if_pos hn] at h
      simp only [List.cons_append, alistLookup, if_pos hn]
      exact h
    · simp only [alistLookup, if_neg hn] at h
      simp only [List.cons_append, alistLookup, if_neg hn]
      exact ih h

theorem alistLookup_dictInsert_self {α : Type} (l : List (String × α)) (k : String)
    (v : α) : alistLookup (dictInsert l k v) k = some v := by
  unfold dictInsert
  split
  · next hany => exact lookup_map_update k v l hany
  · next hany =>
    have hfalse : l.any (fun p => p.1 == k) = false := by
      rw [← Bool.not_eq_true]
      exact hany
    rw [lookup_append_of_none k l [(k, v)] (lookup_of_any_false k l hfalse)]
    simp [alistLookup]

theorem alistLookup_dictInsert_other {α : Type} (l : List (String × α)) (k : String)
    (v : α) (n : String) (hne : n ≠ k) :
    alistLookup (dictInsert l k v) n = alistLookup l n := by
  unfold dictInsert
  split
  · exact lookup_map_update_other k v n hne l
  · cases hl : alistLookup l n with
    | some w => exact lookup_append_of_some n w l [(k, v)] hl
    | none =>
      rw [lookup_append_of_none n l [(k, v)] hl]
      have hkn : ¬ k = n := fun hh => hne hh.symm
      simp [alistLookup, hkn]

theorem persist_fold_other (n : String) :
    ∀ (ws : List (String × Table)) (acc : List (String × SheetOut)),
      n ∉ ws.map Prod.fst →
      alistLookup (ws.foldl (fun acc p => dictInsert acc p.1 (render p.2)) acc) n =
        alistLookup acc n := by
  intro ws
  induction ws with
  | nil => intro acc _; rfl
  | cons p ws ih =>
    intro acc hn
    simp only [List.map_cons, List.mem_cons, not_or] at hn
    simp only [List.foldl_cons]
    rw [ih (dictInsert acc p.1 (render p.2)) hn.2]
    exact alistLookup_dictInsert_other acc p.1 (render p.2) n hn.1

theorem persist_fold_mem :
    ∀ (ws : List (String × Table)) (acc : List (String × SheetOut)),
      (ws.map Prod.fst).Nodup → ∀ q ∈ ws,
      alistLookup (ws.foldl (fun acc p => dictInsert acc p.1 (render p.2)) acc) q.1 =
        some (render q.2) := by
  intro ws
  induction ws with
  | nil => intro acc _ q hq; cases hq
  | cons p ws ih =>
    intro acc hnd q hq
    simp only [List.map_cons, List.nodup_cons] at hnd
    simp only [List.foldl_cons]
    rcases List.mem_cons.mp hq with hhead | htail
    · rw [hhead]
      rw [persist_fold_other p.1 ws (dictInsert acc p.1 (render p.2)) hnd.1]
      exact alistLookup_dictInsert_self acc p.1 (render p.2)
    · exact ih (dictInsert acc p.1 (render p.2)) hnd.2 q htail

theorem dictInsert_ne_nil {α : Type} (l : List (String × α)) (k : String) (v : α) :
    dictInsert l k v ≠ [] := by
  unfold dictInsert
  split
  · next hany =>
    intro hmap
    rw [List.map_eq_nil_iff] at hmap
    rw [hmap] at hany
    simp at hany
  · intro happ
    simp [List.append_eq_nil] at happ

theorem persist_fold_ne_nil :
    ∀ (ws : List (String × Table)) (acc : List (String × SheetOut)), acc ≠ [] →
      ws.foldl (fun acc p => dictInsert acc p.1 (render p.2)) acc ≠ [] := by
  intro ws
  induction ws with
  | nil => intro acc h; exact h
  | cons p ws ih =>
    intro acc _
    exact ih (dictInsert acc p.1 (render p.2)) (dictInsert_ne_nil acc p.1 (render p.2))

/-- C10: sheets of the input workbook that are not in the working set are carried
into the output with their contents unchanged, and each working-set sheet's contents
are replaced by the serialization of its in-memory table. -/
theorem C10_untouched_sheets (wb : List (String × SheetOut)) (ws : List (String × Table))
    (hwb : wb ≠ []) (hnd : (ws.map Prod.fst).Nodup) :
    (∀ n, n ∉ ws.map Prod.fst → alistLookup (persist wb ws) n = alistLookup wb n) ∧
    (∀ q ∈ ws, alistLookup (persist wb ws) q.1 = some (render q.2)) := by
  have hne := persist_fold_ne_nil ws wb hwb
  have hpersist : persist wb ws =
      ws.foldl (fun acc p => dictInsert acc p.1 (render p.2)) wb := by
    unfold persist
    simp [hne]
  rw [hpersist]
  exact ⟨fun n hn => persist_fold_other n ws wb hn,
    fun q hq => persist_fold_mem ws wb hnd q hq⟩

/-- Input workbook for the C10 witness: a Dictionary sheet and a study sheet. -/
def exWB : List (String × SheetOut) :=
  [("Dictionary", [[some "Node"]]), ("study", [[some "x"]])]

def exPersistWS : List (String × Table) := [("study", ⟨["study_id"], [[some "S2"]]⟩)]

theorem C10_witness :
    alistLookup (persist exWB exPersistWS) "Dictionary" =
      alistLookup exWB "Dictionary" :=
  (C10_untouched_sheets exWB exPersistWS (by decide) (by decide)).1 "Dictionary"
    (by decide)

end EntryRemove
